import Mathlib

/-!
# The dashboard server (`service/dashboard/app/server.go`)

A shallow embedding of the request handler of `main`: the path dispatch, the
websocket upgrade, the send loop with its point generation, the `%f`
serialization of a point, and the deferred close.  The network, the random
source and the write outcomes are explicit inputs of the model; every run of
the handler yields the list of effects it performed, in order.
-/

namespace Dashboard

/-! ## Point generation -/

/-- The arithmetic the point generation uses: `*`, `math.Sin`, `math.Cos`,
`math.Pi` and the literal `2.0`, over a number type `α` (`float64` in the
program, the real numbers in its idealisation). -/
structure MathOps (α : Type) where
  mul : α → α → α
  sin : α → α
  cos : α → α
  pi : α
  two : α

/-- A point `x, y, z` of the send loop. -/
structure Point (α : Type) where
  x : α
  y : α
  z : α

/-- Lines 34-40 of `server.go`: the spherical sample `r`, `theta`, `phi` from
three draws and its Cartesian coordinates. Products associate to the left as in
Go. -/
def genPoint {α : Type} (M : MathOps α) (u1 u2 u3 : α) : Point α :=
  let r := u1
  let theta := M.mul M.pi u2
  let phi := M.mul (M.mul M.two M.pi) u3
  let x := M.mul (M.mul r (M.sin theta)) (M.cos phi)
  let y := M.mul (M.mul r (M.sin theta)) (M.sin phi)
  let z := M.mul r (M.cos theta)
  ⟨x, y, z⟩

/-! ## `float64` values and the `%f` verb -/

/-- A `float64` by its three bit fields: sign, biased exponent (11 bits) and
fraction (52 bits). -/
structure Float64 where
  sign : Bool
  expBits : Fin 2048
  mantBits : Fin (2 ^ 52)
  deriving DecidableEq

/-- The rational value of a finite `float64`: `±(2 ^ 52 + mant) * 2 ^ (exp - 1075)`
for a normal number, `±mant * 2 ^ (-1074)` for a subnormal one; `none` for the
infinities and NaN. -/
def Float64.toRat (v : Float64) : Option ℚ :=
  if v.expBits.val = 2047 then none
  else
    let s : ℚ := if v.sign then -1 else 1
    if v.expBits.val = 0 then some (s * (v.mantBits.val : ℚ) * 2 ^ (-1074 : ℤ))
    else some (s * (2 ^ 52 + (v.mantBits.val : ℚ)) * 2 ^ ((v.expBits.val : ℤ) - 1075))

/-- The value is a number of the closed interval `[-1, 1]`, tested on the bit
fields: the exponent field is below the bias 1023, or equals it with a zero
fraction. By `inUnit_iff` these are the values `q` of `toRat` with
`-1 ≤ q ≤ 1`. -/
def Float64.inUnit (v : Float64) : Bool :=
  decide (v.expBits.val < 1023) || (decide (v.expBits.val = 1023) && decide (v.mantBits.val = 0))

/-- The multi-precision decimal of Go's `strconv`: digits, most significant
first, and the position of the decimal point. The `trunc` flag of the Go type
is left out: a `float64` has at most 767 significant decimal digits, fewer than
the 800 the buffer holds, so no digit is ever discarded. -/
structure Decimal where
  d : List Nat
  dp : Int

/-- The number of digits, `a.nd`. -/
def Decimal.nd (a : Decimal) : Nat := a.d.length

/-- Decimal digits of `v`, least significant first, as the division loop of
`decimal.Assign` produces them; `fuel` bounds the number of digits. -/
def digitsLE : Nat → Nat → List Nat
  | 0, _ => []
  | fuel + 1, v => if v = 0 then [] else (v % 10) :: digitsLE fuel (v / 10)

/-- Decimal digits of `n`, most significant first. -/
def digitsBE (n : Nat) : List Nat := (digitsLE n n).reverse

/-- Go's `trim`: drop trailing zeros; a decimal without digits has `dp = 0`. -/
def trim (a : Decimal) : Decimal :=
  let ds := a.d.rdropWhile (· = 0)
  ⟨ds, if ds.length = 0 then 0 else a.dp⟩

/-- The result of `d.Assign(mant); d.Shift(k)`: the exact decimal expansion of
`mant * 2 ^ k`, trimmed. For `k < 0` the value is `mant * 5 ^ (-k) / 10 ^ (-k)`.
`Shift` leaves a decimal without digits alone. -/
def Decimal.ofScaled (mant : Nat) (k : Int) : Decimal :=
  if mant = 0 then ⟨[], 0⟩
  else
    match k with
    | Int.ofNat n =>
      let ds := digitsBE (mant * 2 ^ n)
      trim ⟨ds, ds.length⟩
    | Int.negSucc n =>
      let ds := digitsBE (mant * 5 ^ (n + 1))
      trim ⟨ds, (ds.length : Int) - ((n : Int) + 1)⟩

/-- Go's `shouldRoundUp`: round to nearest, ties to even. -/
def shouldRoundUp (a : Decimal) (nd : Int) : Bool :=
  if nd < 0 ∨ nd ≥ a.nd then false
  else if a.d.getD nd.toNat 0 = 5 ∧ nd + 1 = a.nd then
    decide (nd > 0 ∧ (a.d.getD (nd.toNat - 1) 0) % 2 ≠ 0)
  else decide (a.d.getD nd.toNat 0 ≥ 5)

/-- The loop of `RoundUp` over the kept digits, last digit first: the first
digit below nine is incremented and the digits after it are dropped. -/
def roundUpLoop : List Nat → Option (List Nat)
  | [] => none
  | c :: rest => if c < 9 then some ((c + 1) :: rest) else roundUpLoop rest

/-- Go's `(*decimal).RoundUp`. -/
def Decimal.RoundUp (a : Decimal) (nd : Int) : Decimal :=
  if nd < 0 ∨ nd ≥ a.nd then a
  else
    match roundUpLoop (a.d.take nd.toNat).reverse with
    | some ds => ⟨ds.reverse, a.dp⟩
    | none => ⟨[1], a.dp + 1⟩

/-- Go's `(*decimal).RoundDown`. -/
def Decimal.RoundDown (a : Decimal) (nd : Int) : Decimal :=
  if nd < 0 ∨ nd ≥ a.nd then a
  else trim ⟨a.d.take nd.toNat, a.dp⟩

/-- Go's `(*decimal).Round`. -/
def Decimal.Round (a : Decimal) (nd : Int) : Decimal :=
  if nd < 0 ∨ nd ≥ a.nd then a
  else if shouldRoundUp a nd then a.RoundUp nd else a.RoundDown nd

/-- Go's `fmtF`: sign, integer part padded with zeros, and `prec` digits of
fraction. -/
def fmtF (neg : Bool) (d : Decimal) (prec : Nat) : List Char :=
  let sign : List Char := if neg then ['-'] else []
  let integer : List Char :=
    if d.dp > 0 then
      let m := min d.nd d.dp.toNat
      (d.d.take m).map Nat.digitChar ++ List.replicate (d.dp.toNat - m) '0'
    else ['0']
  let fraction : List Char :=
    if prec > 0 then
      '.' :: (List.range prec).map fun (i : Nat) =>
        let j : Int := d.dp + (i : Int)
        if 0 ≤ j ∧ j < d.nd then Nat.digitChar (d.d.getD j.toNat 0) else '0'
    else []
  sign ++ integer ++ fraction

/-- Go's `bigFtoa` for the format `f`: exact decimal, rounded to `prec` digits
after the point. -/
def bigFtoa (prec : Nat) (neg : Bool) (mant : Nat) (exp : Int) : List Char :=
  let d := Decimal.ofScaled mant (exp - 52)
  let d := d.Round (d.dp + prec)
  fmtF neg d prec

/-- Go's `strconv.FormatFloat(v, 'f', prec, 64)`. With a fixed precision the
format `f` always takes the multi-precision path. -/
def FormatFloat (v : Float64) (prec : Nat) : List Char :=
  let neg := v.sign
  let exp : Nat := v.expBits
  let mant : Nat := v.mantBits
  if exp = 2047 then
    if mant ≠ 0 then "NaN".toList else if neg then "-Inf".toList else "+Inf".toList
  else
    let (exp, mant) := if exp = 0 then (exp + 1, mant) else (exp, mant ||| 2 ^ 52)
    bigFtoa prec neg mant ((exp : Int) + (-1023))

/-- The verb `%f` of `fmt` without flags, width or precision: precision 6. The
sign handling of `fmt` leaves the text of `strconv` as it is. -/
def verbF (v : Float64) : List Char := FormatFloat v 6

/-- Line 42 of `server.go`: the `fmt.Sprintf` call with the format of the
message. -/
def sprintfPoint (x y z : Float64) : List Char :=
  "\x7b\"x\": ".toList ++ verbF x ++ ", \"y\": ".toList ++ verbF y
    ++ ", \"z\": ".toList ++ verbF z ++ "\x7d".toList

/-- The number of characters after the first decimal point of a text. -/
def fracDigits (s : List Char) : Nat := ((s.dropWhile (· ≠ '.')).drop 1).length

/-! ## JSON texts (RFC 8259), to state what a client parses -/

/-- A JSON value; a number keeps its text. -/
inductive JValue where
  | null
  | bool (b : Bool)
  | number (lexeme : List Char)
  | string (s : List Char)
  | array (items : List JValue)
  | object (members : List (List Char × JValue))

instance : Nonempty (List (List Char × JValue)) := ⟨[]⟩

/-- JSON whitespace. -/
def isWs (c : Char) : Bool := c = ' ' || c = '\t' || c = '\n' || c = '\r'

/-- Drop leading whitespace. -/
def skipWs : List Char → List Char
  | [] => []
  | c :: cs => if isWs c then skipWs cs else c :: cs

/-- The value of a hexadecimal digit. -/
def hexVal (c : Char) : Option Nat :=
  if c.isDigit then some (c.toNat - '0'.toNat)
  else if 'a' ≤ c ∧ c ≤ 'f' then some (c.toNat - 'a'.toNat + 10)
  else if 'A' ≤ c ∧ c ≤ 'F' then some (c.toNat - 'A'.toNat + 10)
  else none

/-- An escape sequence after its backslash: the character it stands for and the
input after it. -/
def lexEscape : List Char → Option (Char × List Char)
  | [] => none
  | e :: cs =>
    if e = 'u' then
      match cs with
      | h1 :: h2 :: h3 :: h4 :: rest =>
        match hexVal h1, hexVal h2, hexVal h3, hexVal h4 with
        | some a, some b, some c, some d =>
          some (Char.ofNat (((a * 16 + b) * 16 + c) * 16 + d), rest)
        | _, _, _, _ => none
      | _ => none
    else if e = '"' then some ('"', cs)
    else if e = '\\' then some ('\\', cs)
    else if e = '/' then some ('/', cs)
    else if e = 'b' then some (Char.ofNat 8, cs)
    else if e = 'f' then some (Char.ofNat 12, cs)
    else if e = 'n' then some ('\n', cs)
    else if e = 'r' then some ('\r', cs)
    else if e = 't' then some ('\t', cs)
    else none

/-- The characters of a JSON string up to its closing quotation mark, decoded;
`fuel` bounds the number of characters read. -/
def lexStringAux : Nat → List Char → Option (List Char × List Char)
  | 0, _ => none
  | _ + 1, [] => none
  | fuel + 1, c :: cs =>
    if c = '"' then some ([], cs)
    else if c = '\\' then
      match lexEscape cs with
      | none => none
      | some (ch, r) =>
        match lexStringAux fuel r with
        | some (s, rest) => some (ch :: s, rest)
        | none => none
    else if c.toNat < 32 then none
    else
      match lexStringAux fuel cs with
      | some (s, rest) => some (c :: s, rest)
      | none => none

/-- The rest of a JSON string after its opening quotation mark: the decoded
characters and the input after the closing quotation mark. -/
def lexString (cs : List Char) : Option (List Char × List Char) :=
  lexStringAux cs.length cs

/-- The longest run of decimal digits at the start of the input, and the rest. -/
def spanDigits : List Char → List Char × List Char
  | [] => ([], [])
  | c :: cs =>
    if c.isDigit then (c :: (spanDigits cs).1, (spanDigits cs).2) else ([], c :: cs)

/-- The grammar rule `int = zero / ( digit1-9 *DIGIT )`. -/
def lexInt (cs : List Char) : Option (List Char × List Char) :=
  match cs with
  | [] => none
  | c :: r =>
    if c = '0' then some (['0'], r)
    else if c.isDigit then some (c :: (spanDigits r).1, (spanDigits r).2)
    else none

/-- The grammar rule `[ frac ]`, `frac = decimal-point 1*DIGIT`. -/
def lexFrac (cs : List Char) : Option (List Char × List Char) :=
  match cs with
  | [] => some ([], [])
  | c :: r =>
    if c = '.' then
      if (spanDigits r).1 = [] then none else some ('.' :: (spanDigits r).1, (spanDigits r).2)
    else some ([], c :: r)

/-- The grammar rule `[ exp ]`, `exp = e [ minus / plus ] 1*DIGIT`. -/
def lexExp (cs : List Char) : Option (List Char × List Char) :=
  match cs with
  | [] => some ([], [])
  | c :: r =>
    if c = 'e' ∨ c = 'E' then
      match r with
      | [] => none
      | s :: r1 =>
        if s = '+' ∨ s = '-' then
          if (spanDigits r1).1 = [] then none
          else some (c :: s :: (spanDigits r1).1, (spanDigits r1).2)
        else
          if (spanDigits r).1 = [] then none
          else some (c :: (spanDigits r).1, (spanDigits r).2)
    else some ([], c :: r)

/-- The grammar rule `number = [ minus ] int [ frac ] [ exp ]`: the text of the
number and the input after it. -/
def lexNumber (cs : List Char) : Option (List Char × List Char) :=
  let (sign, r0) : List Char × List Char :=
    match cs with
    | c :: r => if c = '-' then (['-'], r) else ([], c :: r)
    | [] => ([], [])
  match lexInt r0 with
  | none => none
  | some (ip, r1) =>
    match lexFrac r1 with
    | none => none
    | some (fp, r2) =>
      match lexExp r2 with
      | none => none
      | some (ep, r3) => some (sign ++ ip ++ fp ++ ep, r3)

mutual
/-- A JSON value at the start of the input, and the input after it. -/
def parseValue : Nat → List Char → Option (JValue × List Char)
  | 0, _ => none
  | fuel + 1, cs =>
    match skipWs cs with
    | [] => none
    | c :: r =>
      if c = '\x7b' then
        match skipWs r with
        | [] => none
        | c1 :: r1 =>
          if c1 = '\x7d' then some (JValue.object [], r1) else parseMembers fuel (c1 :: r1)
      else if c = '[' then
        match skipWs r with
        | [] => none
        | c1 :: r1 =>
          if c1 = ']' then some (JValue.array [], r1) else parseElements fuel (c1 :: r1)
      else if c = '"' then
        match lexString r with
        | some (s, r1) => some (JValue.string s, r1)
        | none => none
      else if (c :: r).take 4 = "true".toList then some (JValue.bool true, (c :: r).drop 4)
      else if (c :: r).take 5 = "false".toList then some (JValue.bool false, (c :: r).drop 5)
      else if (c :: r).take 4 = "null".toList then some (JValue.null, (c :: r).drop 4)
      else
        match lexNumber (c :: r) with
        | some (n, r1) => some (JValue.number n, r1)
        | none => none
/-- The members of an object up to its closing brace, as an object. -/
def parseMembers : Nat → List Char → Option (JValue × List Char)
  | 0, _ => none
  | fuel + 1, cs =>
    match skipWs cs with
    | [] => none
    | q :: r =>
      if q = '"' then
        match lexString r with
        | none => none
        | some (k, r1) =>
          match skipWs r1 with
          | [] => none
          | c :: r2 =>
            if c = ':' then
              match parseValue fuel r2 with
              | none => none
              | some (v, r3) =>
                match skipWs r3 with
                | [] => none
                | s :: r4 =>
                  if s = '\x7d' then some (JValue.object [(k, v)], r4)
                  else if s = ',' then
                    match parseMembers fuel r4 with
                    | some (JValue.object ms, r5) => some (JValue.object ((k, v) :: ms), r5)
                    | _ => none
                  else none
            else none
      else none
/-- The elements of an array up to its closing bracket, as an array. -/
def parseElements : Nat → List Char → Option (JValue × List Char)
  | 0, _ => none
  | fuel + 1, cs =>
    match parseValue fuel cs with
    | none => none
    | some (v, r) =>
      match skipWs r with
      | [] => none
      | s :: r1 =>
        if s = ']' then some (JValue.array [v], r1)
        else if s = ',' then
          match parseElements fuel r1 with
          | some (JValue.array vs, r2) => some (JValue.array (v :: vs), r2)
          | _ => none
        else none
end

/-- A whole text as one JSON value; `none` when the text is not well-formed
JSON. The recursion depth never exceeds the length of the text. -/
def parseJSON (cs : List Char) : Option JValue :=
  match parseValue (cs.length + 1) cs with
  | some (v, r) => if skipWs r = [] then some v else none
  | none => none

/-- A number text in fixed-point notation: an optional minus sign, digits, a
decimal point, digits; no exponent part. -/
def isFixedPoint (s : List Char) : Bool :=
  let body := match s with
    | c :: r => if c = '-' then r else c :: r
    | [] => []
  let ip := (spanDigits body).1
  let rest := (spanDigits body).2
  match rest with
  | c :: fp => c = '.' && !ip.isEmpty && !fp.isEmpty && fp.all Char.isDigit
  | [] => false

/-! ## The request handler -/

/-- The fields of `r.URL` the program can tell requests apart by. -/
structure URL where
  Path : String
  RawQuery : String
  deriving DecidableEq

/-- An incoming request. -/
structure Request where
  Method : String
  URL : URL
  Host : String
  deriving DecidableEq

/-- The two lines the handler logs. -/
inductive LogLine where
  | err
  | connected
  deriving DecidableEq

/-- The effects of the handler, one per call the source makes. -/
inductive Event where
  /-- The call of `websocket.Upgrade(w, r, nil, 1024, 1024)` and its outcome. -/
  | upgrade (ok : Bool)
  /-- A call of `log.Println`. -/
  | log (line : LogLine)
  /-- A call of `rand.Float64()` and its result. -/
  | rand (v : Float64)
  /-- A call of `ws.WriteMessage(websocket.TextMessage, ...)` and its outcome. -/
  | write (msg : List Char) (ok : Bool)
  /-- The call of `ws.Close()`. -/
  | close
  /-- The call of `http.FileServer(http.Dir("public")).ServeHTTP(w, r)`. -/
  | serveFile (r : Request)
  deriving DecidableEq

/-- What the handler cannot decide itself: whether the upgrade succeeds, the
successive results of `rand.Float64()`, and whether the `i`-th write on the
channel succeeds. -/
structure World where
  upgradeOk : Bool
  rand : Nat → Float64
  writeOk : Nat → Bool

/-- The two targets of the dispatch. -/
inductive Target where
  | stream
  | static
  deriving DecidableEq

/-- Line 22 of `server.go`: the test `r.URL.Path == "/dashboard"`. -/
def dispatch (r : Request) : Target :=
  if r.URL.Path = "/dashboard" then Target.stream else Target.static

/-- Lines 32-49 of `server.go`: the send loop from its iteration `i` on. Each
iteration draws three numbers, computes the point, formats the message and
writes it; a failed write is logged and ends the loop. `none`: the loop is
still running when the fuel is used up. -/
def sendLoop (M : MathOps Float64) (w : World) : Nat → Nat → Option (List Event)
  | 0, _ => none
  | fuel + 1, i =>
    let u1 := w.rand (3 * i)
    let u2 := w.rand (3 * i + 1)
    let u3 := w.rand (3 * i + 2)
    let p := genPoint M u1 u2 u3
    let json := sprintfPoint p.x p.y p.z
    let draws := [Event.rand u1, Event.rand u2, Event.rand u3]
    if w.writeOk i then
      match sendLoop M w fuel (i + 1) with
      | some rest => some (draws ++ Event.write json true :: rest)
      | none => none
    else
      some (draws ++ [Event.write json false, Event.log LogLine.err])

/-- Lines 21-54 of `server.go`: the handler. The deferred `ws.Close()` runs
when the function returns, after the loop. -/
def handler (M : MathOps Float64) (w : World) (fuel : Nat) (r : Request) :
    Option (List Event) :=
  match dispatch r with
  | Target.stream =>
    if w.upgradeOk then
      match sendLoop M w fuel 0 with
      | some evs =>
        some ([Event.upgrade true, Event.log LogLine.connected] ++ evs ++ [Event.close])
      | none => none
    else
      some [Event.upgrade false, Event.log LogLine.err]
  | Target.static => some [Event.serveFile r]

/-- The outcomes of the write attempts of a run, in order. -/
def writeOutcomes : List Event → List Bool
  | [] => []
  | Event.write _ ok :: rest => ok :: writeOutcomes rest
  | _ :: rest => writeOutcomes rest

/-- The first failing write of the world is the one of index `k`. -/
def firstFailure (w : World) (k : Nat) : Prop :=
  (∀ i, i < k → w.writeOk i = true) ∧ w.writeOk k = false

/-! ## Sample inputs -/

/-- The `float64` one half. -/
def half : Float64 := ⟨false, 1022, 0⟩

/-- A sample arithmetic to run the handler on: the product is its first factor,
sine and cosine return their argument. The results on the handler hold for
every arithmetic. -/
def sampleOps : MathOps Float64 :=
  ⟨fun a _ => a, fun a => a, fun a => a, ⟨false, 1024, 0x921FB54442D18⟩, ⟨false, 1024, 0⟩⟩

/-- A world in which the upgrade succeeds, every draw is one half, and the
writes of index 0 and 1 succeed while every later one fails. -/
def sampleWorld : World := ⟨true, fun _ => half, fun i => decide (i < 2)⟩

/-- A world in which the upgrade fails. -/
def refusingWorld : World := ⟨false, fun _ => half, fun _ => true⟩

/-- A request for the stream. -/
def sampleRequest : Request := ⟨"GET", ⟨"/dashboard", ""⟩, "onnx.tech"⟩

/-! ## Shapes of texts, used to state the results -/

/-- The invariant of the decimals the formatting works on: digits below ten,
no leading zero, and `dp = 0` when there is no digit. -/
def Decimal.WF (a : Decimal) : Prop :=
  (∀ x ∈ a.d, x < 10) ∧ a.d.head? ≠ some 0 ∧ (a.d = [] → a.dp = 0)

/-- The texts of the grammar rule `int`: a single zero, or digits that do not
start with a zero. -/
def IsJsonInt (ip : List Char) : Prop :=
  ip = ['0'] ∨ ∃ c ds, ip = c :: ds ∧ c.isDigit = true ∧ c ≠ '0' ∧ ∀ x ∈ ds, x.isDigit = true

/-- A text made of an optional minus sign, an `int`, a decimal point and exactly
`n` digits. -/
def IsFixedText (s : List Char) (n : Nat) : Prop :=
  ∃ sign ip fp, s = sign ++ ip ++ '.' :: fp ∧ (sign = [] ∨ sign = ['-']) ∧ IsJsonInt ip
    ∧ fp.length = n ∧ ∀ x ∈ fp, x.isDigit = true

/-! ## The generated point over the real numbers -/

theorem genPoint_real (u1 u2 u3 : ℝ) :
    genPoint ⟨(· * ·), Real.sin, Real.cos, Real.pi, 2⟩ u1 u2 u3
      = ⟨u1 * Real.sin (Real.pi * u2) * Real.cos (2 * Real.pi * u3),
         u1 * Real.sin (Real.pi * u2) * Real.sin (2 * Real.pi * u3),
         u1 * Real.cos (Real.pi * u2)⟩ := rfl

theorem genPoint_real_sqnorm (u1 u2 u3 : ℝ) :
    (genPoint ⟨(· * ·), Real.sin, Real.cos, Real.pi, 2⟩ u1 u2 u3).x ^ 2
      + (genPoint ⟨(· * ·), Real.sin, Real.cos, Real.pi, 2⟩ u1 u2 u3).y ^ 2
      + (genPoint ⟨(· * ·), Real.sin, Real.cos, Real.pi, 2⟩ u1 u2 u3).z ^ 2 = u1 ^ 2 := by
  simp only [genPoint_real]
  have h1 := Real.sin_sq_add_cos_sq (Real.pi * u2)
  have h2 := Real.sin_sq_add_cos_sq (2 * Real.pi * u3)
  linear_combination (u1 ^ 2 * Real.sin (Real.pi * u2) ^ 2) * h2 + u1 ^ 2 * h1

theorem sq_lt_one_of_unit {u : ℝ} (h0 : 0 ≤ u) (h1 : u < 1) : u ^ 2 < 1 := by nlinarith

theorem abs_mul_le_one {a b : ℝ} (ha : |a| ≤ 1) (hb : |b| ≤ 1) : |a * b| ≤ 1 := by
  rw [abs_mul]
  calc |a| * |b| ≤ 1 * 1 := mul_le_mul ha hb (abs_nonneg b) zero_le_one
    _ = 1 := one_mul 1

theorem abs_le_one_of_unit {u : ℝ} (h0 : 0 ≤ u) (h1 : u < 1) : |u| ≤ 1 := by
  rw [abs_of_nonneg h0]; exact h1.le

/-- C2: for draws `u1, u2, u3` in `[0, 1)` the generated point, computed over the
real numbers, satisfies `x ^ 2 + y ^ 2 + z ^ 2 ≤ 1`. -/
theorem genPoint_in_unit_ball (u1 u2 u3 : ℝ)
    (h1 : 0 ≤ u1 ∧ u1 < 1) (_h2 : 0 ≤ u2 ∧ u2 < 1) (_h3 : 0 ≤ u3 ∧ u3 < 1) :
    (genPoint ⟨(· * ·), Real.sin, Real.cos, Real.pi, 2⟩ u1 u2 u3).x ^ 2
      + (genPoint ⟨(· * ·), Real.sin, Real.cos, Real.pi, 2⟩ u1 u2 u3).y ^ 2
      + (genPoint ⟨(· * ·), Real.sin, Real.cos, Real.pi, 2⟩ u1 u2 u3).z ^ 2 ≤ 1 := by
  rw [genPoint_real_sqnorm]
  exact (sq_lt_one_of_unit h1.1 h1.2).le

/-- C3: for draws `u1, u2, u3` in `[0, 1)` each coordinate of the generated point,
computed over the real numbers, lies in the closed interval `[-1, 1]`. -/
theorem genPoint_coords_in_range (u1 u2 u3 : ℝ)
    (h1 : 0 ≤ u1 ∧ u1 < 1) (_h2 : 0 ≤ u2 ∧ u2 < 1) (_h3 : 0 ≤ u3 ∧ u3 < 1) :
    (genPoint ⟨(· * ·), Real.sin, Real.cos, Real.pi, 2⟩ u1 u2 u3).x ∈ Set.Icc (-1 : ℝ) 1
      ∧ (genPoint ⟨(· * ·), Real.sin, Real.cos, Real.pi, 2⟩ u1 u2 u3).y ∈ Set.Icc (-1 : ℝ) 1
      ∧ (genPoint ⟨(· * ·), Real.sin, Real.cos, Real.pi, 2⟩ u1 u2 u3).z ∈ Set.Icc (-1 : ℝ) 1 := by
  simp only [genPoint_real, Set.mem_Icc, ← abs_le]
  have hu := abs_le_one_of_unit h1.1 h1.2
  exact ⟨abs_mul_le_one (abs_mul_le_one hu (Real.abs_sin_le_one _)) (Real.abs_cos_le_one _),
    abs_mul_le_one (abs_mul_le_one hu (Real.abs_sin_le_one _)) (Real.abs_sin_le_one _),
    abs_mul_le_one hu (Real.abs_cos_le_one _)⟩

theorem genPoint_in_unit_ball_witness :
    (genPoint ⟨(· * ·), Real.sin, Real.cos, Real.pi, 2⟩ (1 / 2 : ℝ) (1 / 2) 0).x ^ 2
      + (genPoint ⟨(· * ·), Real.sin, Real.cos, Real.pi, 2⟩ (1 / 2 : ℝ) (1 / 2) 0).y ^ 2
      + (genPoint ⟨(· * ·), Real.sin, Real.cos, Real.pi, 2⟩ (1 / 2 : ℝ) (1 / 2) 0).z ^ 2 ≤ 1 :=
  genPoint_in_unit_ball (1 / 2) (1 / 2) 0 (by norm_num) (by norm_num) (by norm_num)

/-- C10: for draws `u1, u2, u3` in `[0, 1)` the squared norm of the generated
point, computed over the real numbers, is exactly `u1 ^ 2`, whatever `u2` and
`u3` are; hence it is below one: the point lies strictly inside the unit ball
and not on the unit sphere. -/
theorem genPoint_sqnorm_eq_radius_sq (u1 u2 u3 : ℝ)
    (h1 : 0 ≤ u1 ∧ u1 < 1) (_h2 : 0 ≤ u2 ∧ u2 < 1) (_h3 : 0 ≤ u3 ∧ u3 < 1) :
    (genPoint ⟨(· * ·), Real.sin, Real.cos, Real.pi, 2⟩ u1 u2 u3).x ^ 2
      + (genPoint ⟨(· * ·), Real.sin, Real.cos, Real.pi, 2⟩ u1 u2 u3).y ^ 2
      + (genPoint ⟨(· * ·), Real.sin, Real.cos, Real.pi, 2⟩ u1 u2 u3).z ^ 2 = u1 ^ 2
    ∧ (genPoint ⟨(· * ·), Real.sin, Real.cos, Real.pi, 2⟩ u1 u2 u3).x ^ 2
      + (genPoint ⟨(· * ·), Real.sin, Real.cos, Real.pi, 2⟩ u1 u2 u3).y ^ 2
      + (genPoint ⟨(· * ·), Real.sin, Real.cos, Real.pi, 2⟩ u1 u2 u3).z ^ 2 < 1
    ∧ (genPoint ⟨(· * ·), Real.sin, Real.cos, Real.pi, 2⟩ u1 u2 u3).x ^ 2
      + (genPoint ⟨(· * ·), Real.sin, Real.cos, Real.pi, 2⟩ u1 u2 u3).y ^ 2
      + (genPoint ⟨(· * ·), Real.sin, Real.cos, Real.pi, 2⟩ u1 u2 u3).z ^ 2 ≠ 1 := by
  rw [genPoint_real_sqnorm]
  exact ⟨rfl, sq_lt_one_of_unit h1.1 h1.2, (sq_lt_one_of_unit h1.1 h1.2).ne⟩

/-- A generated point on the `z` axis has `z ≥ 0`: with `theta` in `[0, pi)` the
sine vanishes only at `theta = 0`. -/
theorem genPoint_on_axis_nonneg (u1 u2 u3 : ℝ) (h1 : 0 ≤ u1 ∧ u1 < 1) (h2 : 0 ≤ u2 ∧ u2 < 1)
    (hx : u1 * Real.sin (Real.pi * u2) * Real.cos (2 * Real.pi * u3) = 0)
    (hy : u1 * Real.sin (Real.pi * u2) * Real.sin (2 * Real.pi * u3) = 0) :
    0 ≤ u1 * Real.cos (Real.pi * u2) := by
  have hs : u1 * Real.sin (Real.pi * u2) = 0 := by
    have h2' := Real.sin_sq_add_cos_sq (2 * Real.pi * u3)
    have : (u1 * Real.sin (Real.pi * u2)) ^ 2 = 0 := by
      linear_combination (-(u1 * Real.sin (Real.pi * u2)) ^ 2) * h2'
        + (u1 * Real.sin (Real.pi * u2) * Real.sin (2 * Real.pi * u3)) * hy
        + (u1 * Real.sin (Real.pi * u2) * Real.cos (2 * Real.pi * u3)) * hx
    exact pow_eq_zero_iff (two_ne_zero) |>.mp this
  rcases mul_eq_zero.mp hs with hu1 | hsin
  · rw [hu1, zero_mul]
  · have hu2 : u2 = 0 := by
      by_contra hne
      have hpos : 0 < u2 := lt_of_le_of_ne h2.1 (Ne.symm hne)
      have := Real.sin_pos_of_pos_of_lt_pi (mul_pos Real.pi_pos hpos)
        (by nlinarith [Real.pi_pos])
      linarith
    rw [hu2, mul_zero, Real.cos_zero, mul_one]
    exact h1.1

/-- C8, refuted: the point `(0, 0, -1/2)` lies in the open unit ball, and no
draws `u1, u2, u3` in `[0, 1)` generate it. -/
theorem genPoint_misses_negative_z_axis :
    (0 : ℝ) ^ 2 + 0 ^ 2 + (-1 / 2) ^ 2 < 1 ∧
    ¬ ∃ u1 u2 u3 : ℝ, (0 ≤ u1 ∧ u1 < 1) ∧ (0 ≤ u2 ∧ u2 < 1) ∧ (0 ≤ u3 ∧ u3 < 1) ∧
      genPoint ⟨(· * ·), Real.sin, Real.cos, Real.pi, 2⟩ u1 u2 u3 = ⟨0, 0, -1 / 2⟩ := by
  refine ⟨by norm_num, ?_⟩
  rintro ⟨u1, u2, u3, h1, h2, -, h⟩
  rw [genPoint_real, Point.mk.injEq] at h
  obtain ⟨hx, hy, hz⟩ := h
  have := genPoint_on_axis_nonneg u1 u2 u3 h1 h2 hx hy
  rw [hz] at this
  norm_num at this

theorem sqrt_one_sub_sq_div {a b c : ℝ} (hc : 0 < c) (h : a ^ 2 + b ^ 2 = c ^ 2) :
    √(1 - (a / c) ^ 2) = |b| / c := by
  have : 1 - (a / c) ^ 2 = (|b| / c) ^ 2 := by
    rw [div_pow, div_pow, sq_abs]
    field_simp
    linarith
  rw [this, Real.sqrt_sq (div_nonneg (abs_nonneg b) hc.le)]

theorem abs_div_le_one_of_sq {a b c : ℝ} (hc : 0 < c) (h : a ^ 2 + b ^ 2 = c ^ 2) :
    -1 ≤ a / c ∧ a / c ≤ 1 := by
  have : |a| ≤ c := by
    apply abs_le_of_sq_le_sq _ hc.le
    nlinarith [sq_nonneg b]
  rw [← abs_le, abs_div, abs_of_pos hc]
  exact (div_le_one hc).mpr this

/-- A point of the circle of radius `ρ` has an azimuth in `[0, 2 * pi)`. -/
theorem exists_azimuth {x y ρ : ℝ} (hρ : 0 < ρ) (h : x ^ 2 + y ^ 2 = ρ ^ 2) :
    ∃ φ : ℝ, 0 ≤ φ ∧ φ < 2 * Real.pi ∧ ρ * Real.cos φ = x ∧ ρ * Real.sin φ = y := by
  obtain ⟨hlo, hhi⟩ := abs_div_le_one_of_sq hρ h
  have hsin := sqrt_one_sub_sq_div hρ h
  by_cases hy : 0 ≤ y
  · refine ⟨Real.arccos (x / ρ), Real.arccos_nonneg _, ?_, ?_, ?_⟩
    · linarith [Real.arccos_le_pi (x / ρ), Real.pi_pos]
    · rw [Real.cos_arccos hlo hhi]; field_simp
    · rw [Real.sin_arccos, hsin, abs_of_nonneg hy]; field_simp
  · push_neg at hy
    have hpos : 0 < Real.arccos (x / ρ) := by
      rw [Real.arccos_pos]
      rw [div_lt_one hρ]
      have : |x| < ρ := by
        apply abs_lt_of_sq_lt_sq _ hρ.le
        nlinarith [mul_pos_of_neg_of_neg hy hy]
      exact (abs_lt.mp this).2
    refine ⟨2 * Real.pi - Real.arccos (x / ρ), ?_, ?_, ?_, ?_⟩
    · linarith [Real.arccos_le_pi (x / ρ), Real.pi_pos]
    · linarith
    · rw [Real.cos_two_pi_sub, Real.cos_arccos hlo hhi]; field_simp
    · rw [Real.sin_two_pi_sub, Real.sin_arccos, hsin, abs_of_neg hy]; field_simp

/-- Every point of the open unit ball off the negative `z` half-axis is
generated by draws in `[0, 1)`. -/
theorem genPoint_surjective_off_axis (x y z : ℝ)
    (hball : x ^ 2 + y ^ 2 + z ^ 2 < 1) (haxis : ¬ (x = 0 ∧ y = 0 ∧ z < 0)) :
    ∃ u1 u2 u3 : ℝ, (0 ≤ u1 ∧ u1 < 1) ∧ (0 ≤ u2 ∧ u2 < 1) ∧ (0 ≤ u3 ∧ u3 < 1) ∧
      genPoint ⟨(· * ·), Real.sin, Real.cos, Real.pi, 2⟩ u1 u2 u3 = ⟨x, y, z⟩ := by
  simp only [genPoint_real, Point.mk.injEq]
  have hpi := Real.pi_pos
  by_cases hxy : x ^ 2 + y ^ 2 = 0
  · -- on the non-negative z half-axis
    have hx : x = 0 := by nlinarith [sq_nonneg x, sq_nonneg y]
    have hy : y = 0 := by nlinarith [sq_nonneg x, sq_nonneg y]
    have hz : 0 ≤ z := by
      by_contra hneg
      exact haxis ⟨hx, hy, not_le.mp hneg⟩
    refine ⟨z, 0, 0, ⟨hz, ?_⟩, ⟨le_refl _, one_pos⟩, ⟨le_refl _, one_pos⟩, ?_⟩
    · subst hx hy
      nlinarith
    · simp [hx, hy]
  · set ρ := √(x ^ 2 + y ^ 2) with hρdef
    set r := √(x ^ 2 + y ^ 2 + z ^ 2) with hrdef
    have hxy0 : 0 < x ^ 2 + y ^ 2 := lt_of_le_of_ne (by positivity) (Ne.symm hxy)
    have hρ : 0 < ρ := Real.sqrt_pos.mpr hxy0
    have hρsq : x ^ 2 + y ^ 2 = ρ ^ 2 := (Real.sq_sqrt hxy0.le).symm
    have hr : 0 < r := Real.sqrt_pos.mpr (by positivity)
    have hrsq : z ^ 2 + ρ ^ 2 = r ^ 2 := by
      rw [← hρsq, hrdef, Real.sq_sqrt (by positivity)]; ring
    have hr1 : r < 1 := by
      rw [hrdef, ← Real.sqrt_one]
      exact Real.sqrt_lt_sqrt (by positivity) hball
    obtain ⟨hlo, hhi⟩ := abs_div_le_one_of_sq hr hrsq
    obtain ⟨φ, hφ0, hφ1, hcos, hsin⟩ := exists_azimuth hρ hρsq
    have hθ : Real.arccos (z / r) < Real.pi := by
      apply lt_of_le_of_ne (Real.arccos_le_pi _)
      rw [Ne, Real.arccos_eq_pi, not_le, lt_div_iff₀ hr]
      nlinarith
    have hrs : r * Real.sin (Real.arccos (z / r)) = ρ := by
      rw [Real.sin_arccos, sqrt_one_sub_sq_div hr hrsq, abs_of_pos hρ]; field_simp
    refine ⟨r, Real.arccos (z / r) / Real.pi, φ / (2 * Real.pi), ⟨hr.le, hr1⟩,
      ⟨div_nonneg (Real.arccos_nonneg _) hpi.le, (div_lt_one hpi).mpr hθ⟩,
      ⟨div_nonneg hφ0 (by positivity), (div_lt_one (by positivity)).mpr hφ1⟩, ?_⟩
    have e1 : Real.pi * (Real.arccos (z / r) / Real.pi) = Real.arccos (z / r) := by
      field_simp
    have e2 : 2 * Real.pi * (φ / (2 * Real.pi)) = φ := by field_simp
    rw [e1, e2, hrs, Real.cos_arccos hlo hhi]
    refine ⟨hcos, hsin, ?_⟩
    field_simp

/-- C8, amended: a real point `(x, y, z)` with `x ^ 2 + y ^ 2 + z ^ 2 < 1` is
generated by some draws `u1, u2, u3` in `[0, 1)` exactly when it is not on the
negative `z` half-axis, that is, not `x = 0`, `y = 0` and `z < 0`. -/
theorem genPoint_fills_ball_off_negative_z_axis (x y z : ℝ)
    (hball : x ^ 2 + y ^ 2 + z ^ 2 < 1) :
    (∃ u1 u2 u3 : ℝ, (0 ≤ u1 ∧ u1 < 1) ∧ (0 ≤ u2 ∧ u2 < 1) ∧ (0 ≤ u3 ∧ u3 < 1) ∧
      genPoint ⟨(· * ·), Real.sin, Real.cos, Real.pi, 2⟩ u1 u2 u3 = ⟨x, y, z⟩)
    ↔ ¬ (x = 0 ∧ y = 0 ∧ z < 0) := by
  constructor
  · rintro ⟨u1, u2, u3, h1, h2, -, h⟩ ⟨hx0, hy0, hz0⟩
    rw [genPoint_real, Point.mk.injEq] at h
    obtain ⟨hx, hy, hz⟩ := h
    have := genPoint_on_axis_nonneg u1 u2 u3 h1 h2 (hx.trans hx0) (hy.trans hy0)
    rw [hz] at this
    exact absurd hz0 (not_lt.mpr this)
  · exact genPoint_surjective_off_axis x y z hball

theorem genPoint_fills_ball_off_negative_z_axis_witness :
    (∃ u1 u2 u3 : ℝ, (0 ≤ u1 ∧ u1 < 1) ∧ (0 ≤ u2 ∧ u2 < 1) ∧ (0 ≤ u3 ∧ u3 < 1) ∧
      genPoint ⟨(· * ·), Real.sin, Real.cos, Real.pi, 2⟩ u1 u2 u3 = ⟨1 / 2, 0, 1 / 2⟩)
    ↔ ¬ ((1 / 2 : ℝ) = 0 ∧ (0 : ℝ) = 0 ∧ (1 / 2 : ℝ) < 0) :=
  genPoint_fills_ball_off_negative_z_axis (1 / 2) 0 (1 / 2) (by norm_num)

theorem genPoint_coords_in_range_witness :
    (genPoint ⟨(· * ·), Real.sin, Real.cos, Real.pi, 2⟩ (1 / 2 : ℝ) (1 / 4) (3 / 4)).x
        ∈ Set.Icc (-1 : ℝ) 1
      ∧ (genPoint ⟨(· * ·), Real.sin, Real.cos, Real.pi, 2⟩ (1 / 2 : ℝ) (1 / 4) (3 / 4)).y
        ∈ Set.Icc (-1 : ℝ) 1
      ∧ (genPoint ⟨(· * ·), Real.sin, Real.cos, Real.pi, 2⟩ (1 / 2 : ℝ) (1 / 4) (3 / 4)).z
        ∈ Set.Icc (-1 : ℝ) 1 :=
  genPoint_coords_in_range (1 / 2) (1 / 4) (3 / 4) (by norm_num) (by norm_num) (by norm_num)

theorem genPoint_sqnorm_eq_radius_sq_witness :
    (genPoint ⟨(· * ·), Real.sin, Real.cos, Real.pi, 2⟩ (3 / 4 : ℝ) (1 / 3) 0).x ^ 2
      + (genPoint ⟨(· * ·), Real.sin, Real.cos, Real.pi, 2⟩ (3 / 4 : ℝ) (1 / 3) 0).y ^ 2
      + (genPoint ⟨(· * ·), Real.sin, Real.cos, Real.pi, 2⟩ (3 / 4 : ℝ) (1 / 3) 0).z ^ 2
        = (3 / 4 : ℝ) ^ 2
    ∧ (genPoint ⟨(· * ·), Real.sin, Real.cos, Real.pi, 2⟩ (3 / 4 : ℝ) (1 / 3) 0).x ^ 2
      + (genPoint ⟨(· * ·), Real.sin, Real.cos, Real.pi, 2⟩ (3 / 4 : ℝ) (1 / 3) 0).y ^ 2
      + (genPoint ⟨(· * ·), Real.sin, Real.cos, Real.pi, 2⟩ (3 / 4 : ℝ) (1 / 3) 0).z ^ 2 < 1
    ∧ (genPoint ⟨(· * ·), Real.sin, Real.cos, Real.pi, 2⟩ (3 / 4 : ℝ) (1 / 3) 0).x ^ 2
      + (genPoint ⟨(· * ·), Real.sin, Real.cos, Real.pi, 2⟩ (3 / 4 : ℝ) (1 / 3) 0).y ^ 2
      + (genPoint ⟨(· * ·), Real.sin, Real.cos, Real.pi, 2⟩ (3 / 4 : ℝ) (1 / 3) 0).z ^ 2 ≠ 1 :=
  genPoint_sqnorm_eq_radius_sq (3 / 4) (1 / 3) 0 (by norm_num) (by norm_num) (by norm_num)

/-! ## The dispatch and the stream handler -/

theorem dispatch_stream_iff (r : Request) :
    dispatch r = Target.stream ↔ r.URL.Path = "/dashboard" := by
  unfold dispatch
  split <;> simp_all

theorem dispatch_static_iff (r : Request) :
    dispatch r = Target.static ↔ r.URL.Path ≠ "/dashboard" := by
  unfold dispatch
  split <;> simp_all

theorem writeOutcomes_append (xs ys : List Event) :
    writeOutcomes (xs ++ ys) = writeOutcomes xs ++ writeOutcomes ys := by
  induction xs with
  | nil => rfl
  | cons e rest ih => cases e <;> simp [writeOutcomes, ih]

/-- Every finished run of the send loop from iteration `i` stopped at the first
failing write at or after `i`: it made the successful writes before it, the
failing one, logged the error, and did nothing else but draw numbers. -/
theorem sendLoop_some (M : MathOps Float64) (w : World) :
    ∀ (fuel i : Nat) (evs : List Event), sendLoop M w fuel i = some evs →
      ∃ k, k < fuel ∧ (∀ j, j < k → w.writeOk (i + j) = true) ∧ w.writeOk (i + k) = false
        ∧ writeOutcomes evs = List.replicate k true ++ [false]
        ∧ Event.close ∉ evs
        ∧ (∀ q, Event.serveFile q ∉ evs)
        ∧ ∃ pre msg, evs = pre ++ [Event.write msg false, Event.log LogLine.err] := by
  intro fuel
  induction fuel with
  | zero => intro i evs h; simp [sendLoop] at h
  | succ fuel ih =>
    intro i evs h
    rw [sendLoop] at h
    by_cases hw : w.writeOk i = true
    · simp only [hw, if_true] at h
      cases hrec : sendLoop M w fuel (i + 1) with
      | none => simp [hrec] at h
      | some rest =>
        simp only [hrec, Option.some.injEq] at h
        obtain ⟨k, hk, hok, hfail, hout, hclose, hserve, pre, msg, hpre⟩ := ih (i + 1) rest hrec
        refine ⟨k + 1, by omega, ?_, ?_, ?_, ?_, ?_, ?_⟩
        · intro j hj
          cases j with
          | zero => simpa using hw
          | succ j =>
            have := hok j (by omega)
            rwa [show i + (j + 1) = i + 1 + j by omega]
        · rwa [show i + (k + 1) = i + 1 + k by omega]
        · subst h
          simp [writeOutcomes, hout, List.replicate_succ]
        · subst h
          simp [hclose]
        · subst h
          intro q
          simp [hserve q]
        · subst h
          exact ⟨[Event.rand (w.rand (3 * i)), Event.rand (w.rand (3 * i + 1)),
            Event.rand (w.rand (3 * i + 2)),
            Event.write (sprintfPoint
              (genPoint M (w.rand (3 * i)) (w.rand (3 * i + 1)) (w.rand (3 * i + 2))).x
              (genPoint M (w.rand (3 * i)) (w.rand (3 * i + 1)) (w.rand (3 * i + 2))).y
              (genPoint M (w.rand (3 * i)) (w.rand (3 * i + 1)) (w.rand (3 * i + 2))).z) true]
            ++ pre, msg, by simp [hpre]⟩
    · simp only [hw] at h
      simp only [Bool.false_eq_true, if_false, Option.some.injEq] at h
      refine ⟨0, by omega, by simp, by simpa using hw, ?_, ?_, ?_, ?_⟩
      · subst h; simp [writeOutcomes]
      · subst h; simp
      · subst h; simp
      · subst h
        exact ⟨_, _, rfl⟩

/-- With a first failing write `k` iterations ahead and more than `k` units of
fuel, the send loop finishes. -/
theorem sendLoop_isSome (M : MathOps Float64) (w : World) :
    ∀ (k fuel i : Nat), k < fuel → (∀ j, j < k → w.writeOk (i + j) = true) →
      w.writeOk (i + k) = false → ∃ evs, sendLoop M w fuel i = some evs := by
  intro k
  induction k with
  | zero =>
    intro fuel i hf _ hfail
    obtain ⟨f, rfl⟩ : ∃ f, fuel = f + 1 := ⟨fuel - 1, by omega⟩
    rw [sendLoop]
    simp only [Nat.add_zero] at hfail
    simp [hfail]
  | succ k ih =>
    intro fuel i hf hok hfail
    obtain ⟨f, rfl⟩ : ∃ f, fuel = f + 1 := ⟨fuel - 1, by omega⟩
    have h0 : w.writeOk i = true := by simpa using hok 0 (by omega)
    obtain ⟨rest, hrest⟩ := ih f (i + 1) (by omega)
      (fun j hj => by
        have := hok (j + 1) (by omega)
        rwa [show i + 1 + j = i + (j + 1) by omega])
      (by rwa [show i + 1 + k = i + (k + 1) by omega])
    rw [sendLoop]
    simp [h0, hrest]

/-- As long as every write succeeds the send loop does not finish. -/
theorem sendLoop_none_of_all_ok (M : MathOps Float64) (w : World)
    (hall : ∀ i, w.writeOk i = true) : ∀ fuel i, sendLoop M w fuel i = none := by
  intro fuel
  induction fuel with
  | zero => intro i; rfl
  | succ fuel ih => intro i; rw [sendLoop]; simp [hall i, ih (i + 1)]

theorem firstFailure_unique {w : World} {k k2 : Nat}
    (h : firstFailure w k) (h2 : firstFailure w k2) : k2 = k := by
  rcases Nat.lt_trichotomy k2 k with hlt | heq | hgt
  · have := h.1 k2 hlt
    rw [h2.2] at this
    cases this
  · exact heq
  · have := h2.1 k hgt
    rw [h.2] at this
    cases this

/-- C1: the handler takes the stream branch exactly when the path of the request
is the string `/dashboard`; the paths `/`, `/dashboard/`, `/Dashboard` and
`/dashboard/x` go to the static file server; on every other path the handler
does nothing but call the file server; and two requests with the same path are
dispatched alike, whatever their method, query string and host. -/
theorem dispatch_exact_path :
    (∀ r : Request, dispatch r = Target.stream ↔ r.URL.Path = "/dashboard")
    ∧ (∀ r : Request, r.URL.Path ≠ "/dashboard" → dispatch r = Target.static)
    ∧ (∀ (M : MathOps Float64) (w : World) (fuel : Nat) (r : Request),
        r.URL.Path ≠ "/dashboard" → handler M w fuel r = some [Event.serveFile r])
    ∧ (∀ (M : MathOps Float64) (w : World) (fuel : Nat) (r : Request) (tr : List Event),
        r.URL.Path = "/dashboard" → handler M w fuel r = some tr →
          (∃ ok rest, tr = Event.upgrade ok :: rest) ∧ ∀ q, Event.serveFile q ∉ tr)
    ∧ (∀ m q h, dispatch ⟨m, ⟨"/", q⟩, h⟩ = Target.static)
    ∧ (∀ m q h, dispatch ⟨m, ⟨"/dashboard/", q⟩, h⟩ = Target.static)
    ∧ (∀ m q h, dispatch ⟨m, ⟨"/Dashboard", q⟩, h⟩ = Target.static)
    ∧ (∀ m q h, dispatch ⟨m, ⟨"/dashboard/x", q⟩, h⟩ = Target.static)
    ∧ (∀ r1 r2 : Request, r1.URL.Path = r2.URL.Path → dispatch r1 = dispatch r2) := by
  refine ⟨dispatch_stream_iff, fun r h => (dispatch_static_iff r).mpr h, ?_, ?_,
    ?_, ?_, ?_, ?_, ?_⟩
  · intro M w fuel r h
    simp [handler, (dispatch_static_iff r).mpr h]
  · intro M w fuel r tr h htr
    simp only [handler, (dispatch_stream_iff r).mpr h] at htr
    by_cases hup : w.upgradeOk = true
    · simp only [hup, if_true] at htr
      cases hloop : sendLoop M w fuel 0 with
      | none => simp [hloop] at htr
      | some evs =>
        simp only [hloop, Option.some.injEq] at htr
        obtain ⟨_, _, _, _, _, _, hserve, _⟩ := sendLoop_some M w fuel 0 evs hloop
        subst htr
        exact ⟨⟨true, _, rfl⟩, fun q => by simp [hserve q]⟩
    · simp only [hup, Bool.false_eq_true, if_false, Option.some.injEq] at htr
      subst htr
      exact ⟨⟨false, _, rfl⟩, fun q => by simp⟩
  · intro m q h; simp [dispatch]
  · intro m q h; simp [dispatch]
  · intro m q h; simp [dispatch]
  · intro m q h; simp [dispatch]
  · intro r1 r2 h; simp [dispatch, h]

/-- C5: after a successful upgrade, every run of the handler that returns has
closed the channel exactly once, as its last effect: the close comes after
every write attempt (there is at least one), and nothing, so no write, follows
it. -/
theorem handler_closes_exactly_once (M : MathOps Float64) (w : World) (fuel : Nat)
    (r : Request) (tr : List Event)
    (hpath : r.URL.Path = "/dashboard") (hup : w.upgradeOk = true)
    (hexit : handler M w fuel r = some tr) :
    tr.count Event.close = 1
    ∧ ∃ body, tr = body ++ [Event.close] ∧ Event.close ∉ body
        ∧ writeOutcomes body ≠ [] ∧ writeOutcomes body = writeOutcomes tr := by
  simp only [handler, (dispatch_stream_iff r).mpr hpath, hup, if_true] at hexit
  cases hloop : sendLoop M w fuel 0 with
  | none => simp [hloop] at hexit
  | some evs =>
    simp only [hloop, Option.some.injEq] at hexit
    obtain ⟨k, _, _, _, hout, hclose, _, _⟩ := sendLoop_some M w fuel 0 evs hloop
    subst hexit
    refine ⟨?_, [Event.upgrade true, Event.log LogLine.connected] ++ evs, rfl, ?_, ?_, ?_⟩
    · simp [List.count_eq_zero_of_not_mem hclose]
    · simp [hclose]
    · simp [writeOutcomes_append, writeOutcomes, hout]
    · simp [writeOutcomes_append, writeOutcomes]

/-- C6: after a successful upgrade on `/dashboard`, when the first failing write
has index `k`, the handler returns once it has more than `k` units of fuel, and
every run that returns made exactly `k + 1` write attempts, `k` successful
ones followed by the failing one, after which it only logs the error and
closes; and in a world where every write succeeds the handler never returns. -/
theorem handler_stops_at_first_write_failure (M : MathOps Float64) (w : World)
    (r : Request) (k : Nat)
    (hpath : r.URL.Path = "/dashboard") (hup : w.upgradeOk = true)
    (hk : firstFailure w k) :
    (∀ fuel, k < fuel → ∃ tr, handler M w fuel r = some tr)
    ∧ (∀ fuel tr, handler M w fuel r = some tr →
        writeOutcomes tr = List.replicate k true ++ [false]
        ∧ (writeOutcomes tr).length = k + 1
        ∧ ∃ pre msg, tr = pre ++ [Event.write msg false, Event.log LogLine.err, Event.close])
    ∧ (∀ w2 : World, w2.upgradeOk = true → (∀ i, w2.writeOk i = true) →
        ∀ fuel, handler M w2 fuel r = none) := by
  refine ⟨?_, ?_, ?_⟩
  · intro fuel hf
    obtain ⟨evs, hevs⟩ := sendLoop_isSome M w k fuel 0 hf
      (fun j hj => by simpa using hk.1 j hj) (by simpa using hk.2)
    exact ⟨[Event.upgrade true, Event.log LogLine.connected] ++ evs ++ [Event.close],
      by simp [handler, (dispatch_stream_iff r).mpr hpath, hup, hevs]⟩
  · intro fuel tr htr
    simp only [handler, (dispatch_stream_iff r).mpr hpath, hup, if_true] at htr
    cases hloop : sendLoop M w fuel 0 with
    | none => simp [hloop] at htr
    | some evs =>
      simp only [hloop, Option.some.injEq] at htr
      obtain ⟨k2, _, hok, hfail, hout, _, _, pre, msg, hpre⟩ :=
        sendLoop_some M w fuel 0 evs hloop
      have hk2 : k2 = k :=
        firstFailure_unique hk ⟨fun j hj => by simpa using hok j hj, by simpa using hfail⟩
      subst hk2 htr
      refine ⟨?_, ?_, ?_⟩
      · simp [writeOutcomes_append, writeOutcomes, hout]
      · simp [writeOutcomes_append, writeOutcomes, hout]
      · exact ⟨[Event.upgrade true, Event.log LogLine.connected] ++ pre, msg, by simp [hpre]⟩
  · intro w2 hup2 hall fuel
    simp [handler, (dispatch_stream_iff r).mpr hpath, hup2,
      sendLoop_none_of_all_ok M w2 hall fuel 0]

/-- C7: when the upgrade of a `/dashboard` request fails, the handler returns
after the failed upgrade and the log line: it draws no number, attempts no
write, closes nothing and does not call the file server. -/
theorem handler_upgrade_failure (M : MathOps Float64) (w : World) (fuel : Nat) (r : Request)
    (hpath : r.URL.Path = "/dashboard") (hup : w.upgradeOk = false) :
    handler M w fuel r = some [Event.upgrade false, Event.log LogLine.err]
    ∧ ∀ tr, handler M w fuel r = some tr →
        (∀ v, Event.rand v ∉ tr) ∧ writeOutcomes tr = [] ∧ (∀ m ok, Event.write m ok ∉ tr)
        ∧ Event.close ∉ tr ∧ (∀ q, Event.serveFile q ∉ tr) ∧ Event.upgrade true ∉ tr := by
  have h : handler M w fuel r = some [Event.upgrade false, Event.log LogLine.err] := by
    simp [handler, (dispatch_stream_iff r).mpr hpath, hup]
  refine ⟨h, ?_⟩
  intro tr htr
  rw [h, Option.some.injEq] at htr
  subst htr
  simp [writeOutcomes]

theorem dispatch_exact_path_witness :
    dispatch ⟨"POST", ⟨"/dashboard", "a=1"⟩, "markmakave.com"⟩ = Target.stream
    ∧ handler sampleOps sampleWorld 0 ⟨"GET", ⟨"/dashboard/", ""⟩, "onnx.tech"⟩
        = some [Event.serveFile ⟨"GET", ⟨"/dashboard/", ""⟩, "onnx.tech"⟩] :=
  ⟨(dispatch_exact_path.1 _).mpr rfl, dispatch_exact_path.2.2.1 _ _ _ _ (by decide)⟩

theorem handler_closes_exactly_once_witness :
    ∃ tr, handler sampleOps sampleWorld 3 sampleRequest = some tr
      ∧ tr.count Event.close = 1
      ∧ ∃ body, tr = body ++ [Event.close] ∧ Event.close ∉ body
          ∧ writeOutcomes body ≠ [] ∧ writeOutcomes body = writeOutcomes tr :=
  ⟨_, rfl, handler_closes_exactly_once sampleOps sampleWorld 3 sampleRequest _ rfl rfl rfl⟩

theorem sampleWorld_firstFailure : firstFailure sampleWorld 2 :=
  ⟨fun i hi => by simp [sampleWorld, hi], rfl⟩

theorem handler_stops_at_first_write_failure_witness :
    (∀ fuel, 2 < fuel → ∃ tr, handler sampleOps sampleWorld fuel sampleRequest = some tr)
    ∧ (∀ fuel tr, handler sampleOps sampleWorld fuel sampleRequest = some tr →
        writeOutcomes tr = List.replicate 2 true ++ [false]
        ∧ (writeOutcomes tr).length = 2 + 1
        ∧ ∃ pre msg, tr = pre ++ [Event.write msg false, Event.log LogLine.err, Event.close])
    ∧ (∀ w2 : World, w2.upgradeOk = true → (∀ i, w2.writeOk i = true) →
        ∀ fuel, handler sampleOps w2 fuel sampleRequest = none) :=
  handler_stops_at_first_write_failure sampleOps sampleWorld sampleRequest 2 rfl rfl
    sampleWorld_firstFailure

theorem handler_upgrade_failure_witness :
    handler sampleOps refusingWorld 7 sampleRequest
      = some [Event.upgrade false, Event.log LogLine.err]
    ∧ ∀ tr, handler sampleOps refusingWorld 7 sampleRequest = some tr →
        (∀ v, Event.rand v ∉ tr) ∧ writeOutcomes tr = [] ∧ (∀ m ok, Event.write m ok ∉ tr)
        ∧ Event.close ∉ tr ∧ (∀ q, Event.serveFile q ∉ tr) ∧ Event.upgrade true ∉ tr :=
  handler_upgrade_failure sampleOps refusingWorld 7 sampleRequest rfl rfl

/-- The run of the handler in the sample world with three units of fuel. -/
theorem handler_sample_run :
    handler sampleOps sampleWorld 3 sampleRequest
      = some [Event.upgrade true, Event.log LogLine.connected,
          Event.rand half, Event.rand half, Event.rand half,
          Event.write "\x7b\"x\": 0.500000, \"y\": 0.500000, \"z\": 0.500000\x7d".toList true,
          Event.rand half, Event.rand half, Event.rand half,
          Event.write "\x7b\"x\": 0.500000, \"y\": 0.500000, \"z\": 0.500000\x7d".toList true,
          Event.rand half, Event.rand half, Event.rand half,
          Event.write "\x7b\"x\": 0.500000, \"y\": 0.500000, \"z\": 0.500000\x7d".toList false,
          Event.log LogLine.err, Event.close] := by
  decide

/-! ## The values of `[-1, 1]` -/

theorem signed_unit_iff (b : Bool) (X : ℚ) (hX : 0 ≤ X) :
    (-1 ≤ (if b then (-1 : ℚ) else 1) * X ∧ (if b then (-1 : ℚ) else 1) * X ≤ 1) ↔ X ≤ 1 := by
  cases b
  · simp only [Bool.false_eq_true, if_false, one_mul]
    exact ⟨fun h => h.2, fun h => ⟨by linarith, h⟩⟩
  · simp only [if_true, neg_mul, one_mul]
    exact ⟨fun h => by linarith, fun h => ⟨by linarith, by linarith⟩⟩

theorem scaled_le_one_iff (m e : Nat) (hm : m < 2 ^ 52) (he0 : e ≠ 0) :
    ((2 : ℚ) ^ 52 + (m : ℚ)) * 2 ^ ((e : ℤ) - 1075) ≤ 1 ↔ e < 1023 ∨ (e = 1023 ∧ m = 0) := by
  have hm' : (m : ℚ) < 2 ^ 52 := by exact_mod_cast hm
  have hm0 : (0 : ℚ) ≤ m := Nat.cast_nonneg m
  have hpos : (0 : ℚ) < 2 ^ ((e : ℤ) - 1075) := zpow_pos (by norm_num) _
  rcases Nat.lt_trichotomy e 1023 with hlt | heq | hgt
  · -- below the bias
    have h1 : (2 : ℚ) ^ ((e : ℤ) - 1075) ≤ 2 ^ (-53 : ℤ) :=
      zpow_le_zpow_right₀ (by norm_num) (by omega)
    have h2 : ((2 : ℚ) ^ 52 + m) * 2 ^ (-53 : ℤ) ≤ 1 := by
      have : ((2 : ℚ) ^ 52 + m) ≤ 2 ^ 53 := by
        have : (2 : ℚ) ^ 53 = 2 ^ 52 + 2 ^ 52 := by norm_num
        linarith
      calc ((2 : ℚ) ^ 52 + m) * 2 ^ (-53 : ℤ) ≤ 2 ^ 53 * 2 ^ (-53 : ℤ) :=
            mul_le_mul_of_nonneg_right this (by positivity)
        _ = 1 := by norm_num
    constructor
    · intro _; exact Or.inl hlt
    · intro _
      calc ((2 : ℚ) ^ 52 + m) * 2 ^ ((e : ℤ) - 1075)
          ≤ ((2 : ℚ) ^ 52 + m) * 2 ^ (-53 : ℤ) := mul_le_mul_of_nonneg_left h1 (by positivity)
        _ ≤ 1 := h2
  · subst heq
    have h52 : (2 : ℚ) ^ (((1023 : ℕ) : ℤ) - 1075) = 2 ^ (-52 : ℤ) := by norm_num
    rw [h52]
    have hinv : (2 : ℚ) ^ 52 * 2 ^ (-52 : ℤ) = 1 := by norm_num
    have hp : (0 : ℚ) < 2 ^ (-52 : ℤ) := by positivity
    constructor
    · intro h
      right
      refine ⟨rfl, ?_⟩
      by_contra hne
      have hm1 : (1 : ℚ) ≤ m := by exact_mod_cast Nat.one_le_iff_ne_zero.mpr hne
      have : (1 : ℚ) < ((2 : ℚ) ^ 52 + m) * 2 ^ (-52 : ℤ) := by
        have : (m : ℚ) * 2 ^ (-52 : ℤ) > 0 := by positivity
        nlinarith
      linarith
    · rintro (h | ⟨-, h⟩)
      · omega
      · subst h
        simp only [Nat.cast_zero, add_zero]
        exact hinv.le
  · have h1 : (2 : ℚ) ^ (-51 : ℤ) ≤ 2 ^ ((e : ℤ) - 1075) :=
      zpow_le_zpow_right₀ (by norm_num) (by omega)
    constructor
    · intro h
      exfalso
      have h2 : (2 : ℚ) ^ 52 * 2 ^ (-51 : ℤ) = 2 := by norm_num
      have h3 : (2 : ℚ) ^ 52 * 2 ^ (-51 : ℤ) ≤ ((2 : ℚ) ^ 52 + m) * 2 ^ ((e : ℤ) - 1075) :=
        mul_le_mul (by linarith) h1 (by positivity) (by positivity)
      linarith
    · rintro (h | ⟨h, -⟩) <;> omega

/-- The bit test `inUnit` holds exactly for the values of `[-1, 1]`. -/
theorem inUnit_iff (v : Float64) :
    v.inUnit = true ↔ ∃ q, v.toRat = some q ∧ -1 ≤ q ∧ q ≤ 1 := by
  obtain ⟨s, ⟨e, he⟩, ⟨m, hm⟩⟩ := v
  simp only [Float64.inUnit, Float64.toRat, Bool.or_eq_true, Bool.and_eq_true,
    decide_eq_true_eq]
  by_cases h1 : e = 2047
  · subst h1; simp
  · simp only [h1, if_false]
    by_cases h0 : e = 0
    · subst h0
      simp only [if_true, Option.some.injEq, exists_eq_left', mul_assoc]
      rw [signed_unit_iff s _ (by positivity)]
      have hm' : (m : ℚ) < 2 ^ 52 := by exact_mod_cast hm
      have : (m : ℚ) * 2 ^ (-1074 : ℤ) ≤ 1 := by
        have h2 : (2 : ℚ) ^ (-1074 : ℤ) ≤ 2 ^ (-52 : ℤ) := zpow_le_zpow_right₀ (by norm_num) (by norm_num)
        have h3 : (2 : ℚ) ^ 52 * 2 ^ (-52 : ℤ) = 1 := by norm_num
        calc (m : ℚ) * 2 ^ (-1074 : ℤ) ≤ 2 ^ 52 * 2 ^ (-52 : ℤ) :=
              mul_le_mul hm'.le h2 (by positivity) (by positivity)
          _ = 1 := h3
      exact ⟨fun _ => this, fun _ => Or.inl (by norm_num)⟩
    · simp only [h0, if_false, Option.some.injEq, exists_eq_left', mul_assoc]
      rw [signed_unit_iff s _ (by positivity)]
      exact (scaled_le_one_iff m e hm h0).symm

/-! ## The `%f` verb: shape of the text -/

theorem digitsLE_zero (fuel : Nat) : digitsLE fuel 0 = [] := by
  cases fuel <;> simp [digitsLE]

theorem digitsLE_lt_ten : ∀ (fuel v x : Nat), x ∈ digitsLE fuel v → x < 10 := by
  intro fuel
  induction fuel with
  | zero => intro v x h; simp [digitsLE] at h
  | succ fuel ih =>
    intro v x h
    rw [digitsLE] at h
    split at h
    · simp at h
    · rcases List.mem_cons.mp h with rfl | h
      · exact Nat.mod_lt _ (by decide)
      · exact ih _ _ h

theorem digitsLE_getLast : ∀ (fuel v : Nat), v ≤ fuel →
    (digitsLE fuel v).getLast? ≠ some 0 := by
  intro fuel
  induction fuel with
  | zero => intro v _; simp [digitsLE]
  | succ fuel ih =>
    intro v hv
    rw [digitsLE]
    split
    · simp
    · rename_i hv0
      by_cases hq : v / 10 = 0
      · rw [hq, digitsLE_zero]
        have hlt : v < 10 := by omega
        simp [Nat.mod_eq_of_lt hlt, hv0]
      · have hne : digitsLE fuel (v / 10) ≠ [] := by
          cases fuel with
          | zero => omega
          | succ f => rw [digitsLE]; simp [hq]
        obtain ⟨y, ys, hys⟩ := List.exists_cons_of_ne_nil hne
        have := ih (v / 10) (by omega)
        rw [hys] at this ⊢
        simpa [List.getLast?_cons_cons] using this

theorem digitsBE_lt_ten (n x : Nat) (h : x ∈ digitsBE n) : x < 10 :=
  digitsLE_lt_ten n n x (List.mem_reverse.mp h)

theorem digitsBE_head (n : Nat) : (digitsBE n).head? ≠ some 0 := by
  unfold digitsBE
  rw [List.head?_reverse]
  exact digitsLE_getLast n n (le_refl n)

theorem head_of_initial_segment {l1 l2 : List Nat} (h : l1 <+: l2) (hne : l1 ≠ []) :
    l1.head? = l2.head? := by
  obtain ⟨t, rfl⟩ := h
  cases l1 with
  | nil => exact absurd rfl hne
  | cons a l => rfl

theorem trim_WF (a : Decimal) (hlt : ∀ x ∈ a.d, x < 10) (hhead : a.d.head? ≠ some 0) :
    (trim a).WF := by
  have hpre : a.d.rdropWhile (· = 0) <+: a.d := List.rdropWhile_prefix _ _
  refine ⟨fun x hx => hlt x (hpre.subset hx), ?_, ?_⟩
  · show (a.d.rdropWhile (· = 0)).head? ≠ some 0
    by_cases hne : a.d.rdropWhile (· = 0) = []
    · simp [hne]
    · rw [head_of_initial_segment hpre hne]; exact hhead
  · intro h
    have h2 : a.d.rdropWhile (· = 0) = [] := h
    simp [trim, h2]

theorem ofScaled_WF (mant : Nat) (k : Int) : (Decimal.ofScaled mant k).WF := by
  unfold Decimal.ofScaled
  split
  · exact ⟨by simp, by simp, fun _ => rfl⟩
  · split
    · exact trim_WF _ (digitsBE_lt_ten _) (digitsBE_head _)
    · exact trim_WF _ (digitsBE_lt_ten _) (digitsBE_head _)

theorem roundUpLoop_some : ∀ (l ds : List Nat), (∀ x ∈ l, x < 10) →
    l.getLast? ≠ some 0 → roundUpLoop l = some ds →
    (∀ x ∈ ds, x < 10) ∧ ds.getLast? ≠ some 0 ∧ ds ≠ [] := by
  intro l
  induction l with
  | nil => intro ds _ _ h; simp [roundUpLoop] at h
  | cons c rest ih =>
    intro ds hlt hlast h
    rw [roundUpLoop] at h
    split at h
    · rename_i hc
      rw [Option.some.injEq] at h
      subst h
      refine ⟨?_, ?_, by simp⟩
      · intro x hx
        rcases List.mem_cons.mp hx with rfl | hx
        · omega
        · exact hlt x (List.mem_cons_of_mem _ hx)
      · cases rest with
        | nil => simp
        | cons r rs => simpa [List.getLast?_cons_cons] using hlast
    · have hrest : rest ≠ [] := by
        rintro rfl
        simp [roundUpLoop] at h
      obtain ⟨r, rs, hrs⟩ := List.exists_cons_of_ne_nil hrest
      apply ih ds (fun x hx => hlt x (List.mem_cons_of_mem _ hx)) _ h
      rw [hrs] at hlast ⊢
      simpa [List.getLast?_cons_cons] using hlast

theorem take_head? (l : List Nat) (n : Nat) : (l.take n).head? ≠ some 0 ∨ l.head? = some 0 := by
  cases l with
  | nil => simp
  | cons a t =>
    cases n with
    | zero => simp
    | succ n =>
      by_cases h : a = 0
      · right; simp [h]
      · left; simp [h]

theorem RoundUp_WF (a : Decimal) (nd : Int) (h : a.WF) : (a.RoundUp nd).WF := by
  unfold Decimal.RoundUp
  split
  · exact h
  · have hlt : ∀ x ∈ (a.d.take nd.toNat).reverse, x < 10 := fun x hx =>
      h.1 x (List.mem_of_mem_take (List.mem_reverse.mp hx))
    have hlast : (a.d.take nd.toNat).reverse.getLast? ≠ some 0 := by
      rw [List.getLast?_reverse]
      exact (take_head? a.d nd.toNat).resolve_right h.2.1
    split
    · rename_i ds hds
      obtain ⟨h1, h2, h3⟩ := roundUpLoop_some _ ds hlt hlast hds
      refine ⟨fun x hx => h1 x (List.mem_reverse.mp hx), ?_, ?_⟩
      · show ds.reverse.head? ≠ some 0
        rw [List.head?_reverse]; exact h2
      · intro hnil
        have : ds.reverse = [] := hnil
        exact absurd (List.reverse_eq_nil_iff.mp this) h3
    · exact ⟨by simp, by simp, by simp⟩

theorem RoundDown_WF (a : Decimal) (nd : Int) (h : a.WF) : (a.RoundDown nd).WF := by
  unfold Decimal.RoundDown
  split
  · exact h
  · exact trim_WF _ (fun x hx => h.1 x (List.mem_of_mem_take hx))
      ((take_head? a.d nd.toNat).resolve_right h.2.1)

theorem Round_WF (a : Decimal) (nd : Int) (h : a.WF) : (a.Round nd).WF := by
  unfold Decimal.Round
  split
  · exact h
  · split
    · exact RoundUp_WF a nd h
    · exact RoundDown_WF a nd h

theorem digitChar_isDigit (n : Nat) (h : n < 10) : (Nat.digitChar n).isDigit = true := by
  interval_cases n <;> decide

theorem digitChar_ne_zero (n : Nat) (h : n < 10) (h0 : n ≠ 0) : Nat.digitChar n ≠ '0' := by
  interval_cases n <;> first | exact absurd rfl h0 | decide

theorem getD_lt_ten (l : List Nat) (h : ∀ x ∈ l, x < 10) (i : Nat) : l.getD i 0 < 10 := by
  rw [List.getD_eq_getElem?_getD]
  cases hi : l[i]? with
  | none => simp
  | some x => simpa using h x (List.getElem?_mem hi)

/-- The text `fmtF` makes of a well-formed decimal. -/
theorem fmtF_shape (neg : Bool) (d : Decimal) (h : d.WF) (prec : Nat) (hp : 0 < prec) :
    IsFixedText (fmtF neg d prec) prec := by
  obtain ⟨hlt, hhead, hnil⟩ := h
  refine ⟨if neg then ['-'] else [],
    if d.dp > 0 then
      (d.d.take (min d.nd d.dp.toNat)).map Nat.digitChar
        ++ List.replicate (d.dp.toNat - min d.nd d.dp.toNat) '0'
    else ['0'],
    List.map (fun i : Nat =>
      if 0 ≤ d.dp + (i : Int) ∧ d.dp + (i : Int) < d.nd then
        Nat.digitChar (d.d.getD (d.dp + (i : Int)).toNat 0) else '0') (List.range prec),
    ?_, ?_, ?_, ?_, ?_⟩
  · simp only [fmtF, if_pos hp]
  · cases neg <;> simp
  · -- the integer part
    by_cases hdp : d.dp > 0
    · rw [if_pos hdp]
      right
      cases hd : d.d with
      | nil => exact absurd (hnil hd) (by omega)
      | cons a t =>
        have ha : a < 10 := hlt a (by simp [hd])
        have ha0 : a ≠ 0 := by
          intro h0
          apply hhead
          simp [hd, h0]
        have hm : min d.nd d.dp.toNat = (min d.nd d.dp.toNat - 1) + 1 := by
          have h1 : 1 ≤ d.nd := by simp [Decimal.nd, hd]
          have h2 : 1 ≤ d.dp.toNat := by omega
          have : 1 ≤ min d.nd d.dp.toNat := le_min h1 h2
          omega
        refine ⟨Nat.digitChar a, (t.take (min d.nd d.dp.toNat - 1)).map Nat.digitChar
          ++ List.replicate (d.dp.toNat - min d.nd d.dp.toNat) '0', ?_, digitChar_isDigit a ha,
          digitChar_ne_zero a ha ha0, ?_⟩
        · rw [hm, List.take_succ_cons]
          simp
        · intro x hx
          rcases List.mem_append.mp hx with hx | hx
          · obtain ⟨y, hy, rfl⟩ := List.mem_map.mp hx
            exact digitChar_isDigit y (hlt y (by
              rw [hd]; exact List.mem_cons_of_mem _ (List.mem_of_mem_take hy)))
          · rw [List.eq_of_mem_replicate hx]; rfl
    · rw [if_neg hdp]
      left; rfl
  · simp
  · intro x hx
    obtain ⟨i, _, rfl⟩ := List.mem_map.mp hx
    split
    · exact digitChar_isDigit _ (getD_lt_ten d.d hlt _)
    · rfl

theorem bigFtoa_shape (prec : Nat) (hp : 0 < prec) (neg : Bool) (mant : Nat) (exp : Int) :
    IsFixedText (bigFtoa prec neg mant exp) prec :=
  fmtF_shape _ _ (Round_WF _ _ (ofScaled_WF _ _)) prec hp

/-- The text of `%f` for a finite `float64`: sign, integer part, point and six
digits. -/
theorem verbF_shape (v : Float64) (hfin : v.expBits.val ≠ 2047) : IsFixedText (verbF v) 6 := by
  unfold verbF FormatFloat
  simp only [hfin, if_false]
  split <;> exact bigFtoa_shape 6 (by decide) _ _ _

theorem inUnit_finite (v : Float64) (h : v.inUnit = true) : v.expBits.val ≠ 2047 := by
  simp only [Float64.inUnit, Bool.or_eq_true, Bool.and_eq_true, decide_eq_true_eq] at h
  omega

/-! ## The message as a JSON text -/

theorem spanDigits_append (ds : List Char) (c : Char) (rest : List Char)
    (hds : ∀ x ∈ ds, x.isDigit = true) (hc : c.isDigit = false) :
    spanDigits (ds ++ c :: rest) = (ds, c :: rest) := by
  induction ds with
  | nil => simp [spanDigits, hc]
  | cons a t ih =>
    have ha : a.isDigit = true := hds a (by simp)
    have := ih (fun x hx => hds x (List.mem_cons_of_mem _ hx))
    simp [spanDigits, ha, this]

theorem isDigit_ne_of_not_isDigit {c e : Char} (hc : c.isDigit = true) (he : e.isDigit = false) :
    c ≠ e := by
  rintro rfl
  rw [hc] at he
  cases he

/-- The number rule reads a fixed-point text whole when a character that is
neither a digit nor an exponent mark follows it. -/
theorem lexNumber_fixed (s : List Char) (n : Nat) (hn : 0 < n) (h : IsFixedText s n)
    (c : Char) (rest : List Char) (hc : c.isDigit = false) (he : c ≠ 'e') (hE : c ≠ 'E') :
    lexNumber (s ++ c :: rest) = some (s, c :: rest) := by
  obtain ⟨sign, ip, fp, rfl, hsign, hip, hlen, hfp⟩ := h
  have hfp0 : fp ≠ [] := by
    rintro rfl
    simp at hlen
    omega
  have hfrac : spanDigits (fp ++ c :: rest) = (fp, c :: rest) :=
    spanDigits_append fp c rest hfp hc
  have hdot : ('.' : Char).isDigit = false := by decide
  have hminus : ('-' : Char).isDigit = false := by decide
  have hzero : ('0' : Char) ≠ '-' := by decide
  rcases hsign with rfl | rfl <;> rcases hip with rfl | ⟨c0, ds, rfl, hc0, hc00, hds⟩
  · simp [lexNumber, lexInt, lexFrac, lexExp, hfrac, hfp0, he, hE]
  · have hint : spanDigits (ds ++ '.' :: (fp ++ c :: rest)) = (ds, '.' :: (fp ++ c :: rest)) :=
      spanDigits_append ds '.' _ hds hdot
    have hne : c0 ≠ '-' := isDigit_ne_of_not_isDigit hc0 hminus
    simp [lexNumber, lexInt, lexFrac, lexExp, hfrac, hfp0, he, hE, hint, hne, hc0, hc00]
  · simp [lexNumber, lexInt, lexFrac, lexExp, hfrac, hfp0, he, hE]
  · have hint : spanDigits (ds ++ '.' :: (fp ++ c :: rest)) = (ds, '.' :: (fp ++ c :: rest)) :=
      spanDigits_append ds '.' _ hds hdot
    simp [lexNumber, lexInt, lexFrac, lexExp, hfrac, hfp0, he, hE, hint, hc0, hc00]

theorem fixedText_head (s : List Char) (n : Nat) (h : IsFixedText s n) :
    ∃ c t, s = c :: t ∧ (c = '-' ∨ c.isDigit = true) := by
  obtain ⟨sign, ip, fp, rfl, hsign, hip, -, -⟩ := h
  rcases hsign with rfl | rfl
  · rcases hip with rfl | ⟨c0, ds, rfl, hc0, -, -⟩
    · exact ⟨'0', _, rfl, Or.inr (by decide)⟩
    · exact ⟨c0, _, rfl, Or.inr hc0⟩
  · exact ⟨'-', _, rfl, Or.inl rfl⟩

theorem number_head_ne (c e : Char) (hc : c = '-' ∨ c.isDigit = true)
    (he : e.isDigit = false) (hm : e ≠ '-') : c ≠ e := by
  rcases hc with rfl | hc
  · exact fun h => hm h.symm
  · exact isDigit_ne_of_not_isDigit hc he

/-- A fixed-point text after one blank is read as a JSON number, up to the
comma or closing brace that follows it. -/
theorem parseValue_fixed (fuel : Nat) (s : List Char) (n : Nat) (hn : 0 < n)
    (h : IsFixedText s n) (c : Char) (rest : List Char)
    (hc : c.isDigit = false) (he : c ≠ 'e') (hE : c ≠ 'E') :
    parseValue (fuel + 1) (' ' :: (s ++ c :: rest)) = some (JValue.number s, c :: rest) := by
  have hlex := lexNumber_fixed s n hn h c rest hc he hE
  obtain ⟨c0, t, rfl, hc0⟩ := fixedText_head s n h
  have h1 : c0 ≠ ' ' := number_head_ne c0 _ hc0 (by decide) (by decide)
  have h2 : c0 ≠ '\t' := number_head_ne c0 _ hc0 (by decide) (by decide)
  have h3 : c0 ≠ '\n' := number_head_ne c0 _ hc0 (by decide) (by decide)
  have h4 : c0 ≠ '\r' := number_head_ne c0 _ hc0 (by decide) (by decide)
  have h5 : c0 ≠ '\x7b' := number_head_ne c0 _ hc0 (by decide) (by decide)
  have h6 : c0 ≠ '[' := number_head_ne c0 _ hc0 (by decide) (by decide)
  have h7 : c0 ≠ '"' := number_head_ne c0 _ hc0 (by decide) (by decide)
  have h8 : c0 ≠ 't' := number_head_ne c0 _ hc0 (by decide) (by decide)
  have h9 : c0 ≠ 'f' := number_head_ne c0 _ hc0 (by decide) (by decide)
  have h10 : c0 ≠ 'n' := number_head_ne c0 _ hc0 (by decide) (by decide)
  rw [parseValue]
  have hws : skipWs (' ' :: (c0 :: t ++ c :: rest)) = c0 :: t ++ c :: rest := by
    simp [skipWs, isWs, h1, h2, h3, h4]
  rw [hws]
  simp only [List.cons_append] at hlex ⊢
  simp [h5, h6, h7, h8, h9, h10, hlex]

theorem lexString_one (k : Char) (hk1 : k ≠ '"') (hk2 : k ≠ '\\') (hk3 : ¬ k.toNat < 32)
    (rest : List Char) : lexString (k :: '"' :: rest) = some ([k], rest) := by
  simp [lexString, lexStringAux, hk1, hk2, hk3]

/-- A member whose name is one plain character and whose value is a fixed-point
text, followed by the closing brace. -/
theorem parseMembers_last (fuel : Nat) (k : Char) (hk1 : k ≠ '"') (hk2 : k ≠ '\\')
    (hk3 : ¬ k.toNat < 32) (s : List Char) (n : Nat) (hn : 0 < n) (h : IsFixedText s n)
    (rest : List Char) :
    parseMembers (fuel + 2) (' ' :: '"' :: k :: '"' :: ':' :: ' ' :: (s ++ '\x7d' :: rest))
      = some (JValue.object [([k], JValue.number s)], rest) := by
  have hv := parseValue_fixed fuel s n hn h '\x7d' rest (by decide) (by decide) (by decide)
  rw [parseMembers]
  simp [skipWs, isWs, lexString_one k hk1 hk2 hk3, hv]

/-- A member whose name is one plain character and whose value is a fixed-point
text, followed by a comma and further members. -/
theorem parseMembers_more (fuel : Nat) (k : Char) (hk1 : k ≠ '"') (hk2 : k ≠ '\\')
    (hk3 : ¬ k.toNat < 32) (s : List Char) (n : Nat) (hn : 0 < n) (h : IsFixedText s n)
    (rest : List Char) (ms : List (List Char × JValue)) (r5 : List Char)
    (hrest : parseMembers (fuel + 1) rest = some (JValue.object ms, r5)) :
    parseMembers (fuel + 2) ('"' :: k :: '"' :: ':' :: ' ' :: (s ++ ',' :: rest))
      = some (JValue.object (([k], JValue.number s) :: ms), r5) := by
  have hv := parseValue_fixed fuel s n hn h ',' rest (by decide) (by decide) (by decide)
  rw [parseMembers]
  simp [skipWs, isWs, lexString_one k hk1 hk2 hk3, hv, hrest]

theorem skipWs_blank_cons (cs : List Char) : skipWs (' ' :: cs) = skipWs cs := by
  simp [skipWs, isWs]

theorem parseMembers_blank (fuel : Nat) (cs : List Char) :
    parseMembers (fuel + 1) (' ' :: cs) = parseMembers (fuel + 1) cs := by
  rw [parseMembers, parseMembers, skipWs_blank_cons]

theorem sprintfPoint_eq (x y z : Float64) :
    sprintfPoint x y z = '\x7b' :: '"' :: 'x' :: '"' :: ':' :: ' ' :: (verbF x ++
      ',' :: ' ' :: '"' :: 'y' :: '"' :: ':' :: ' ' :: (verbF y ++
      ',' :: ' ' :: '"' :: 'z' :: '"' :: ':' :: ' ' :: (verbF z ++ '\x7d' :: []))) := by
  simp [sprintfPoint]

/-- The message of three fixed-point texts parses as the object with the
members `x`, `y`, `z`. -/
theorem parseValue_message (fuel : Nat) (nx ny nz : List Char) (n : Nat) (hn : 0 < n)
    (hx : IsFixedText nx n) (hy : IsFixedText ny n) (hz : IsFixedText nz n) :
    parseValue (fuel + 5) ('\x7b' :: '"' :: 'x' :: '"' :: ':' :: ' ' :: (nx ++
      ',' :: ' ' :: '"' :: 'y' :: '"' :: ':' :: ' ' :: (ny ++
      ',' :: ' ' :: '"' :: 'z' :: '"' :: ':' :: ' ' :: (nz ++ '\x7d' :: []))))
    = some (JValue.object [(['x'], JValue.number nx), (['y'], JValue.number ny),
        (['z'], JValue.number nz)], []) := by
  have h3 := parseMembers_last fuel 'z' (by decide) (by decide) (by decide) nz n hn hz []
  have h2 := parseMembers_more (fuel + 1) 'y' (by decide) (by decide) (by decide) ny n hn hy
    _ _ _ h3
  rw [← parseMembers_blank] at h2
  have h1 := parseMembers_more (fuel + 2) 'x' (by decide) (by decide) (by decide) nx n hn hx
    _ _ _ h2
  rw [parseValue]
  simp [skipWs, isWs, h1]

theorem parseJSON_message (nx ny nz : List Char) (n : Nat) (hn : 0 < n)
    (hx : IsFixedText nx n) (hy : IsFixedText ny n) (hz : IsFixedText nz n) :
    parseJSON ('\x7b' :: '"' :: 'x' :: '"' :: ':' :: ' ' :: (nx ++
      ',' :: ' ' :: '"' :: 'y' :: '"' :: ':' :: ' ' :: (ny ++
      ',' :: ' ' :: '"' :: 'z' :: '"' :: ':' :: ' ' :: (nz ++ '\x7d' :: []))))
    = some (JValue.object [(['x'], JValue.number nx), (['y'], JValue.number ny),
        (['z'], JValue.number nz)]) := by
  unfold parseJSON
  have hfuel : ∀ t : List Char,
      ('\x7b' :: '"' :: 'x' :: '"' :: ':' :: ' ' :: t).length + 1 = (t.length + 2) + 5 := by
    intro t
    simp only [List.length_cons]
  rw [hfuel, parseValue_message _ nx ny nz n hn hx hy hz]
  simp [skipWs]

theorem jsonInt_digits (ip : List Char) (h : IsJsonInt ip) :
    ip ≠ [] ∧ ∀ x ∈ ip, x.isDigit = true := by
  rcases h with rfl | ⟨c, ds, rfl, hc, -, hds⟩
  · exact ⟨by simp, by simp⟩
  · refine ⟨by simp, ?_⟩
    intro x hx
    rcases List.mem_cons.mp hx with rfl | hx
    · exact hc
    · exact hds x hx

/-- A fixed text is in fixed-point notation. -/
theorem isFixedPoint_of_fixedText (s : List Char) (n : Nat) (hn : 0 < n)
    (h : IsFixedText s n) : isFixedPoint s = true := by
  obtain ⟨sign, ip, fp, rfl, hsign, hip, hlen, hfp⟩ := h
  obtain ⟨hne, hdig⟩ := jsonInt_digits ip hip
  have hspan : spanDigits (ip ++ '.' :: fp) = (ip, '.' :: fp) :=
    spanDigits_append ip '.' fp hdig (by decide)
  have hfp0 : fp ≠ [] := by
    rintro rfl
    simp at hlen
    omega
  have hall : fp.all Char.isDigit = true := List.all_eq_true.mpr hfp
  obtain ⟨c0, t, rfl⟩ := List.exists_cons_of_ne_nil hne
  have hc0 : c0 ≠ '-' :=
    isDigit_ne_of_not_isDigit (hdig c0 (by simp)) (by decide)
  rcases hsign with rfl | rfl
  · simp only [isFixedPoint, List.nil_append, List.cons_append, if_neg hc0]
    rw [← List.cons_append, hspan]
    simp [hfp0, hall]
  · simp only [isFixedPoint, List.cons_append, List.nil_append, if_true]
    rw [← List.cons_append, hspan]
    simp [hfp0, hall]

/-- A fixed text has neither an exponent mark nor a character other than a
minus sign, digits and a point. -/
theorem fixedText_chars (s : List Char) (n : Nat) (h : IsFixedText s n) :
    ∀ c ∈ s, c = '-' ∨ c = '.' ∨ c.isDigit = true := by
  obtain ⟨sign, ip, fp, rfl, hsign, hip, -, hfp⟩ := h
  obtain ⟨-, hdig⟩ := jsonInt_digits ip hip
  intro c hc
  simp only [List.mem_append, List.mem_cons] at hc
  rcases hc with (hc | hc) | rfl | hc
  · rcases hsign with rfl | rfl
    · simp at hc
    · left; simpa using hc
  · exact Or.inr (Or.inr (hdig c hc))
  · exact Or.inr (Or.inl rfl)
  · exact Or.inr (Or.inr (hfp c hc))

theorem fixedText_no_exponent (s : List Char) (n : Nat) (h : IsFixedText s n) :
    'e' ∉ s ∧ 'E' ∉ s := by
  constructor
  · intro hmem
    rcases fixedText_chars s n h _ hmem with h1 | h1 | h1 <;> revert h1 <;> decide
  · intro hmem
    rcases fixedText_chars s n h _ hmem with h1 | h1 | h1 <;> revert h1 <;> decide

theorem dropWhile_ne_point (l fp : List Char) (h : ∀ x ∈ l, x ≠ '.') :
    (l ++ '.' :: fp).dropWhile (· ≠ '.') = '.' :: fp := by
  induction l with
  | nil => simp [List.dropWhile]
  | cons a t ih =>
    have ha : a ≠ '.' := h a (by simp)
    have := ih (fun x hx => h x (List.mem_cons_of_mem _ hx))
    simpa [List.dropWhile, ha] using this

/-- A fixed text with `n` digits of fraction has `n` characters after its
point. -/
theorem fracDigits_of_fixedText (s : List Char) (n : Nat) (h : IsFixedText s n) :
    fracDigits s = n := by
  obtain ⟨sign, ip, fp, rfl, hsign, hip, hlen, -⟩ := h
  obtain ⟨-, hdig⟩ := jsonInt_digits ip hip
  have hno : ∀ x ∈ sign ++ ip, x ≠ '.' := by
    intro x hx
    rcases List.mem_append.mp hx with hx | hx
    · rcases hsign with rfl | rfl
      · simp at hx
      · have : x = '-' := by simpa using hx
        subst this; decide
    · exact isDigit_ne_of_not_isDigit (hdig x hx) (by decide)
  unfold fracDigits
  rw [dropWhile_ne_point _ _ hno]
  simpa using hlen

theorem fracDigits_verbF (v : Float64) (h : v.inUnit = true) : fracDigits (verbF v) = 6 :=
  fracDigits_of_fixedText _ 6 (verbF_shape v (inUnit_finite v h))

/-- C4: for coordinates in `[-1, 1]` the text of the message is well-formed JSON:
it parses as the object with exactly the three members `x`, `y`, `z`, in this
order, each a number; each number text is in fixed-point notation and has no
exponent mark. -/
theorem message_is_json_point (x y z : Float64)
    (hx : x.inUnit = true) (hy : y.inUnit = true) (hz : z.inUnit = true) :
    parseJSON (sprintfPoint x y z)
      = some (JValue.object [("x".toList, JValue.number (verbF x)),
          ("y".toList, JValue.number (verbF y)), ("z".toList, JValue.number (verbF z))])
    ∧ (isFixedPoint (verbF x) = true ∧ isFixedPoint (verbF y) = true
        ∧ isFixedPoint (verbF z) = true)
    ∧ ('e' ∉ verbF x ∧ 'E' ∉ verbF x) ∧ ('e' ∉ verbF y ∧ 'E' ∉ verbF y)
    ∧ ('e' ∉ verbF z ∧ 'E' ∉ verbF z) := by
  have sx := verbF_shape x (inUnit_finite x hx)
  have sy := verbF_shape y (inUnit_finite y hy)
  have sz := verbF_shape z (inUnit_finite z hz)
  refine ⟨?_, ⟨isFixedPoint_of_fixedText _ 6 (by decide) sx,
    isFixedPoint_of_fixedText _ 6 (by decide) sy, isFixedPoint_of_fixedText _ 6 (by decide) sz⟩,
    fixedText_no_exponent _ 6 sx, fixedText_no_exponent _ 6 sy, fixedText_no_exponent _ 6 sz⟩
  rw [sprintfPoint_eq]
  exact parseJSON_message _ _ _ 6 (by decide) sx sy sz

theorem message_is_json_point_witness :
    parseJSON (sprintfPoint ⟨true, 1022, 0⟩ ⟨false, 1016, 0⟩ ⟨false, 1023, 0⟩)
      = some (JValue.object [("x".toList, JValue.number (verbF ⟨true, 1022, 0⟩)),
          ("y".toList, JValue.number (verbF ⟨false, 1016, 0⟩)),
          ("z".toList, JValue.number (verbF ⟨false, 1023, 0⟩))])
    ∧ (isFixedPoint (verbF ⟨true, 1022, 0⟩) = true ∧ isFixedPoint (verbF ⟨false, 1016, 0⟩) = true
        ∧ isFixedPoint (verbF ⟨false, 1023, 0⟩) = true)
    ∧ ('e' ∉ verbF ⟨true, 1022, 0⟩ ∧ 'E' ∉ verbF ⟨true, 1022, 0⟩)
    ∧ ('e' ∉ verbF ⟨false, 1016, 0⟩ ∧ 'E' ∉ verbF ⟨false, 1016, 0⟩)
    ∧ ('e' ∉ verbF ⟨false, 1023, 0⟩ ∧ 'E' ∉ verbF ⟨false, 1023, 0⟩) :=
  message_is_json_point ⟨true, 1022, 0⟩ ⟨false, 1016, 0⟩ ⟨false, 1023, 0⟩
    (by decide) (by decide) (by decide)

/-- The message of the point `(-0.5, 0.0078125, 1)`; the second coordinate is a
tie and rounds to the even digit. -/
theorem sprintfPoint_example :
    sprintfPoint ⟨true, 1022, 0⟩ ⟨false, 1016, 0⟩ ⟨false, 1023, 0⟩
      = "\x7b\"x\": -0.500000, \"y\": 0.007812, \"z\": 1.000000\x7d".toList := by
  decide

/-- C9, refuted: no two coordinate values of `[-1, 1]` are rendered with
different numbers of digits after the decimal point. -/
theorem no_two_values_differ_in_fraction_digits :
    ¬ ∃ a b : Float64, a.inUnit = true ∧ b.inUnit = true
      ∧ fracDigits (verbF a) ≠ fracDigits (verbF b) := by
  rintro ⟨a, b, ha, hb, hne⟩
  exact hne ((fracDigits_verbF a ha).trans (fracDigits_verbF b hb).symm)

/-- C9, amended: every coordinate value of `[-1, 1]` is rendered with exactly
six digits after the decimal point, in fixed-point notation. -/
theorem verbF_six_fraction_digits (v : Float64) (h : v.inUnit = true) :
    fracDigits (verbF v) = 6 ∧ IsFixedText (verbF v) 6 :=
  ⟨fracDigits_verbF v h, verbF_shape v (inUnit_finite v h)⟩

theorem verbF_six_fraction_digits_witness :
    fracDigits (verbF ⟨false, 1016, 0⟩) = 6 ∧ IsFixedText (verbF ⟨false, 1016, 0⟩) 6 :=
  verbF_six_fraction_digits ⟨false, 1016, 0⟩ (by decide)

end Dashboard
